import Mathlib

/-!
Verification of the `SparseOptimizer` core of g2o
(`src/g2o/core/sparse_optimizer.h`).

The repository ships only the class declaration; the member function
bodies (except the inline `terminate`) are not part of the sources.
Following the specification document, the behaviour of those members is
modelled here explicitly: states are passed around as values, the
externally owned force-stop flag (a `bool*` mutated by the caller over
time) is modelled as an optional time-indexed boolean, and the pluggable
`OptimizationAlgorithm` is passed explicitly to the operations that
delegate to it.
-/

namespace g2o

/-- A graph vertex: identifier, fixed/free flag, block dimension, current
estimate, and the per-vertex stack of estimate snapshots.  Estimates are
modelled as integer vectors (`List Int`). -/
structure Vertex where
  vid : Nat
  fixed : Bool
  dim : Nat
  estimate : List Int
  stack : List (List Int)
deriving DecidableEq, Repr

/-- A graph edge: identifier and the ordered list of referenced vertex ids. -/
structure Edge where
  eid : Nat
  verts : List Nat
deriving DecidableEq, Repr

/-- Comparison of vertices by ascending id (the `VertexIDCompare` order used
for `_activeVertices`). -/
def vidLe (a b : Vertex) : Prop := a.vid ≤ b.vid

/-- Strict version of the id order on vertices. -/
def vidLt (a b : Vertex) : Prop := a.vid < b.vid

instance : DecidableRel vidLe := fun a b => Nat.decLe a.vid b.vid

instance : DecidableRel vidLt := fun a b => Nat.decLt a.vid b.vid

instance : IsTotal Vertex vidLe := ⟨fun a b => Nat.le_total a.vid b.vid⟩

instance : IsTrans Vertex vidLe := ⟨fun _ _ _ h h' => Nat.le_trans h h'⟩

instance : IsAntisymm Vertex vidLt :=
  ⟨fun _ _ h h' => absurd (Nat.lt_trans h h') (Nat.lt_irrefl _)⟩

/-- Comparison of edges by ascending id (the `EdgeIDCompare` order used for
`_activeEdges`). -/
def eidLe (a b : Edge) : Prop := a.eid ≤ b.eid

instance : DecidableRel eidLe := fun a b => Nat.decLe a.eid b.eid

/-- Modelled from the spec: `SparseOptimizer::buildIndexMapping` (body not in
the sources).  The Active Vertex Set is the non-fixed vertices of the
requested list, sorted by ascending vertex id; the block index of an active
vertex is its position in this list. -/
def buildIndexMapping (vlist : List Vertex) : List Vertex :=
  List.insertionSort vidLe (vlist.filter (fun v => !v.fixed))

/-- C1: building the index mapping from a vertex subset with distinct ids
keeps exactly the non-fixed vertices, gives each of them a block index
(its position) in `[0, |active|)`, orders them by strictly ascending vertex
id (hence indices are unique), and the result is invariant under any
permutation of the input list. -/
theorem buildIndexMapping_spec (V : List Vertex)
    (hnd : (V.map Vertex.vid).Nodup) :
    (∀ v ∈ V, v.fixed = false →
      v ∈ buildIndexMapping V ∧
      (buildIndexMapping V).indexOf v < (buildIndexMapping V).length) ∧
    (∀ v ∈ buildIndexMapping V, v ∈ V ∧ v.fixed = false) ∧
    ((buildIndexMapping V).map Vertex.vid).Sorted (· < ·) ∧
    (buildIndexMapping V).Nodup ∧
    (∀ W : List Vertex, W.Perm V → buildIndexMapping W = buildIndexMapping V) := by
  have hperm : ∀ U : List Vertex,
      (buildIndexMapping U).Perm (U.filter (fun v => !v.fixed)) :=
    fun U => List.perm_insertionSort vidLe _
  have hsortedle : ∀ U : List Vertex,
      (buildIndexMapping U).Sorted vidLe :=
    fun U => List.sorted_insertionSort vidLe _
  -- strict sortedness from weak sortedness plus distinct ids
  have hstrict : ∀ U : List Vertex, (U.map Vertex.vid).Nodup →
      (buildIndexMapping U).Sorted vidLt := by
    intro U hU
    have hfil : ((U.filter (fun v => !v.fixed)).map Vertex.vid).Nodup := by
      have hsub : List.Sublist ((U.filter (fun v => !v.fixed)).map Vertex.vid)
          (U.map Vertex.vid) := (List.filter_sublist U).map Vertex.vid
      exact hU.sublist hsub
    have hres : ((buildIndexMapping U).map Vertex.vid).Nodup := by
      have : ((buildIndexMapping U).map Vertex.vid).Perm
          ((U.filter (fun v => !v.fixed)).map Vertex.vid) :=
        (hperm U).map Vertex.vid
      exact hfil.perm this.symm
    have hne : (buildIndexMapping U).Pairwise (fun a b => a.vid ≠ b.vid) :=
      (List.pairwise_map).1 hres
    have hle : (buildIndexMapping U).Pairwise vidLe := hsortedle U
    exact (hle.and hne).imp (fun h => Nat.lt_of_le_of_ne h.1 h.2)
  have hstrictV := hstrict V hnd
  refine ⟨?_, ?_, ?_, ?_, ?_⟩
  · intro v hv hfix
    have hmem : v ∈ buildIndexMapping V := by
      have : v ∈ V.filter (fun v => !v.fixed) := by
        refine List.mem_filter.2 ⟨hv, ?_⟩
        simp [hfix]
      exact ((hperm V).mem_iff).2 this
    exact ⟨hmem, List.indexOf_lt_length.2 hmem⟩
  · intro v hv
    have : v ∈ V.filter (fun v => !v.fixed) := ((hperm V).mem_iff).1 hv
    have h := List.mem_filter.1 this
    refine ⟨h.1, ?_⟩
    simpa using h.2
  · exact (List.pairwise_map).2 hstrictV
  · have hres : ((buildIndexMapping V).map Vertex.vid).Nodup := by
      have hfil : ((V.filter (fun v => !v.fixed)).map Vertex.vid).Nodup := by
        have hsub : List.Sublist ((V.filter (fun v => !v.fixed)).map Vertex.vid)
            (V.map Vertex.vid) := (List.filter_sublist V).map Vertex.vid
        exact hnd.sublist hsub
      have : ((buildIndexMapping V).map Vertex.vid).Perm
          ((V.filter (fun v => !v.fixed)).map Vertex.vid) :=
        (hperm V).map Vertex.vid
      exact hfil.perm this.symm
    exact hres.of_map Vertex.vid
  · intro W hWV
    have hndW : (W.map Vertex.vid).Nodup := hnd.perm (hWV.map Vertex.vid).symm
    have hp : (buildIndexMapping W).Perm (buildIndexMapping V) :=
      ((hperm W).trans (hWV.filter _)).trans (hperm V).symm
    exact List.eq_of_perm_of_sorted hp (hstrict W hndW) hstrictV

/-- Modelled from the spec: `SparseOptimizer::push` (body not in the
sources).  Snapshots the current estimate of every vertex of the subset `S`
(given by ids) onto that vertex's private stack. -/
def push (S : List Nat) (vs : List Vertex) : List Vertex :=
  vs.map (fun v => if v.vid ∈ S then {v with stack := v.estimate :: v.stack} else v)

/-- Per-vertex behaviour of `pop`: restore the top snapshot as the estimate
and remove it from the stack; a silent no-op when the stack is empty. -/
def popVertex (v : Vertex) : Vertex :=
  match v.stack with
  | [] => v
  | e :: rest => {v with estimate := e, stack := rest}

/-- Modelled from the spec: `SparseOptimizer::pop` (body not in the
sources).  Restores the estimates of the subset `S` from the top stack
entries. -/
def pop (S : List Nat) (vs : List Vertex) : List Vertex :=
  vs.map (fun v => if v.vid ∈ S then popVertex v else v)

/-- Modelled from the spec: `SparseOptimizer::discardTop` (body not in the
sources).  Removes the top snapshot of every vertex of `S` without
restoring it. -/
def discardTop (S : List Nat) (vs : List Vertex) : List Vertex :=
  vs.map (fun v => if v.vid ∈ S then {v with stack := v.stack.tail} else v)

/-- The slice of the flat increment vector belonging to vertex id `i`: walk
the active vertices in block-index order, consuming `dim` entries each. -/
def sliceFor (act : List Vertex) (d : List Int) (i : Nat) : Option (List Int) :=
  match act with
  | [] => none
  | w :: rest => if w.vid = i then some (d.take w.dim) else sliceFor rest (d.drop w.dim) i

/-- The estimate of `v` after applying the increment: unchanged when `v` is
not an active vertex, otherwise the additive correction by its slice. -/
def newEstimate (act : List Vertex) (d : List Int) (v : Vertex) : List Int :=
  match sliceFor act d v.vid with
  | none => v.estimate
  | some s => v.estimate.zipWith (· + ·) s

/-- Applying the increment to a single vertex touches only its estimate. -/
def updateVertex (act : List Vertex) (d : List Int) (v : Vertex) : Vertex :=
  {v with estimate := newEstimate act d v}

/-- Modelled from the spec: `SparseOptimizer::update` (body not in the
sources).  Applies the flat increment vector `d`, ordered by block index
over the active vertices `act`, as an additive correction to the estimates. -/
def update (act : List Vertex) (d : List Int) (vs : List Vertex) : List Vertex :=
  vs.map (updateVertex act d)

theorem updateVertex_vid (act : List Vertex) (d : List Int) (v : Vertex) :
    (updateVertex act d v).vid = v.vid := rfl

/-- C3: after `push S; update d; pop S`, every vertex of the subset `S` is
restored exactly to its pre-push state (in particular its estimate), for any
increment vector `d`; vertices outside `S` receive just the update. -/
theorem push_update_pop_restores (S : List Nat) (act : List Vertex) (d : List Int)
    (vs : List Vertex) :
    pop S (update act d (push S vs)) =
      vs.map (fun v => if v.vid ∈ S then v else updateVertex act d v) := by
  unfold pop update push
  rw [List.map_map, List.map_map]
  apply List.map_congr_left
  intro v _
  by_cases h : v.vid ∈ S
  · simp only [Function.comp, if_pos h, updateVertex, newEstimate, popVertex]
  · simp only [Function.comp, if_neg h, updateVertex, popVertex]

/-- C4: `push S` adds exactly one snapshot level to the stack of every
vertex of `S` (and no other), and a following `discardTop S` removes exactly
that level without touching the estimates: the state returns to exactly what
it was before the push. -/
theorem push_discardTop_frame (S : List Nat) (vs : List Vertex) :
    discardTop S (push S vs) = vs ∧
    (push S vs).map (fun v => v.stack.length) =
      vs.map (fun v => if v.vid ∈ S then v.stack.length + 1 else v.stack.length) := by
  constructor
  · unfold discardTop push
    rw [List.map_map]
    have : ∀ v ∈ vs, ((fun v => if v.vid ∈ S then {v with stack := v.stack.tail} else v) ∘
        (fun v => if v.vid ∈ S then {v with stack := v.estimate :: v.stack} else v)) v =
        id v := by
      intro v _
      by_cases h : v.vid ∈ S
      · simp only [Function.comp, if_pos h, List.tail_cons, id]
      · simp only [Function.comp, if_neg h, id]
    rw [List.map_congr_left this, List.map_id]
  · unfold push
    rw [List.map_map]
    apply List.map_congr_left
    intro v _
    by_cases h : v.vid ∈ S
    · simp [Function.comp, if_pos h]
    · simp [Function.comp, if_neg h]

/-- C9: `pop S` acts per vertex: a vertex of `S` whose stack is empty is
left completely unchanged (silent no-op, no failure), while a vertex of `S`
with a non-empty stack has the top snapshot restored as its estimate and
removed from its stack. -/
theorem pop_empty_stack_noop (S : List Nat) (vs : List Vertex) (i : Nat) (v : Vertex)
    (hv : vs[i]? = some v) (hS : v.vid ∈ S) :
    (v.stack = [] → (pop S vs)[i]? = some v) ∧
    (∀ e rest, v.stack = e :: rest →
      (pop S vs)[i]? = some {v with estimate := e, stack := rest}) := by
  constructor
  · intro hst
    unfold pop
    rw [List.getElem?_map, hv]
    simp [popVertex, hS, hst]
  · intro e rest hst
    unfold pop
    rw [List.getElem?_map, hv]
    simp [popVertex, hS, hst]

/-- Example vertices used to instantiate the theorems. -/
def vA : Vertex := ⟨1, false, 2, [3, 4], []⟩

def vB : Vertex := ⟨2, false, 1, [5], [[9]]⟩

def vFix : Vertex := ⟨3, true, 1, [0], []⟩

theorem buildIndexMapping_spec_witness :
    vB ∈ buildIndexMapping [vB, vFix, vA] ∧
    ((buildIndexMapping [vB, vFix, vA]).map Vertex.vid).Sorted (· < ·) ∧
    buildIndexMapping [vA, vB, vFix] = buildIndexMapping [vB, vFix, vA] := by
  have h := buildIndexMapping_spec [vB, vFix, vA] (by decide)
  exact ⟨(h.1 vB (by decide) (by decide)).1, h.2.2.1, h.2.2.2.2 [vA, vB, vFix] (by decide)⟩

theorem pop_empty_stack_noop_witness :
    (pop [1, 2] [vA, vB])[0]? = some vA ∧
    (pop [1, 2] [vA, vB])[1]? = some {vB with estimate := [9], stack := []} :=
  ⟨(pop_empty_stack_noop [1, 2] [vA, vB] 0 vA (by decide) (by decide)).1 (by decide),
   (pop_empty_stack_noop [1, 2] [vA, vB] 1 vB (by decide) (by decide)).2 [9] [] (by decide)⟩

/-- The optimizer state: the graph's vertices, the index mapping `_ivMap`,
the Active Vertex Set `_activeVertices`, the Active Edge Set `_activeEdges`,
the cached chi-square of the active portion, and the externally owned
force-stop flag.  The `bool*` flag is modelled as an optional time-indexed
boolean: `some f` is an installed flag whose pointee reads `f t` at poll
time `t`, `none` is the null pointer. -/
structure OptState where
  vertices : List Vertex
  ivMap : List Vertex
  activeVertices : List Vertex
  activeEdges : List Edge
  cachedChi2 : Int
  forceStopFlag : Option (Nat → Bool)

/-- Look a vertex up by id in the graph's vertex container. -/
def lookupVertex (vs : List Vertex) (i : Nat) : Option Vertex :=
  vs.find? (fun v => v.vid == i)

/-- All vertex ids referenced by an edge set. -/
def edgeVids (eset : List Edge) : List Nat :=
  (eset.map Edge.verts).flatten

/-- The graph vertices referenced by the edge set (each id once). -/
def collectVertices (vs : List Vertex) (eset : List Edge) : List Vertex :=
  ((edgeVids eset).dedup).filterMap (lookupVertex vs)

/-- Modelled from the spec: the edge-set overload of
`SparseOptimizer::initializeOptimization` (body not in the sources).  The
given edges become the Active Edge Set and the non-fixed vertices they
reference become the Active Vertex Set with block indices in id order; the
call fails, leaving the state untouched, when an edge references a vertex
that is not in the graph or when the resulting active set is empty. -/
def initializeOptimization (st : OptState) (eset : List Edge) : Bool × OptState :=
  if (edgeVids eset).all (fun i => (lookupVertex st.vertices i).isSome) then
    if buildIndexMapping (collectVertices st.vertices eset) = [] then (false, st)
    else (true, { st with
                  ivMap := buildIndexMapping (collectVertices st.vertices eset),
                  activeVertices := buildIndexMapping (collectVertices st.vertices eset),
                  activeEdges := List.insertionSort eidLe eset })
  else (false, st)

/-- C2: `initializeOptimization` over an edge set fails when an edge
references a vertex id absent from the graph, fails when the resulting
active vertex set is empty, and whenever it fails it performs no mutation at
all: the returned state is exactly the input state. -/
theorem initializeOptimization_spec (st : OptState) (eset : List Edge) :
    ((initializeOptimization st eset).1 = false →
      (initializeOptimization st eset).2 = st) ∧
    ((∃ i ∈ edgeVids eset, lookupVertex st.vertices i = none) →
      (initializeOptimization st eset).1 = false) ∧
    (buildIndexMapping (collectVertices st.vertices eset) = [] →
      (initializeOptimization st eset).1 = false) := by
  by_cases hall : (edgeVids eset).all (fun i => (lookupVertex st.vertices i).isSome) = true
  · by_cases hemp : buildIndexMapping (collectVertices st.vertices eset) = []
    · refine ⟨fun _ => ?_, fun _ => ?_, fun _ => ?_⟩ <;>
        simp [initializeOptimization, hall, hemp]
    · refine ⟨?_, ?_, fun h => absurd h hemp⟩
      · intro h
        simp [initializeOptimization, hall, hemp] at h
      · rintro ⟨i, hi, hnone⟩
        have := List.all_eq_true.1 hall i hi
        rw [hnone] at this
        simp at this
  · have h1 : (initializeOptimization st eset).1 = false := by
      simp [initializeOptimization, hall]
    have h2 : (initializeOptimization st eset).2 = st := by
      simp [initializeOptimization, hall]
    exact ⟨fun _ => h2, fun _ => h1, fun _ => h1⟩

/-- An edge referencing vertex id 99, which is not in the example graph. -/
def eBad : Edge := ⟨7, [1, 99]⟩

/-- An optimizer state over the example graph with nothing active yet. -/
def stEx : OptState := ⟨[vA, vB, vFix], [], [], [], 0, none⟩

theorem initializeOptimization_spec_witness :
    (initializeOptimization stEx [eBad]).1 = false ∧
    (initializeOptimization stEx [eBad]).2 = stEx := by
  have h := initializeOptimization_spec stEx [eBad]
  have hf : (initializeOptimization stEx [eBad]).1 = false :=
    h.2.1 ⟨99, by decide, by decide⟩
  exact ⟨hf, h.1 hf⟩

/-- The robustified chi-square accumulated over the active edges, evaluated
against the current vertex estimates; the per-edge error functional is the
Graph Model's and is passed in explicitly. -/
def chi2Total (errFn : Edge → List Vertex → Int) (edges : List Edge)
    (vs : List Vertex) : Int :=
  (edges.map (fun e => errFn e vs)).sum

/-- Modelled from the spec: `SparseOptimizer::computeActiveErrors` (body not
in the sources).  Re-evaluates every active edge's error against the current
estimates and caches the accumulated chi-square; it mutates nothing else. -/
def computeActiveErrors (errFn : Edge → List Vertex → Int) (st : OptState) : OptState :=
  { st with cachedChi2 := chi2Total errFn st.activeEdges st.vertices }

/-- Member `SparseOptimizer::activeChi2`: the cached chi-square of the active
portion of the graph. -/
def activeChi2 (st : OptState) : Int :=
  st.cachedChi2

/-- C5: `computeActiveErrors` is idempotent — it does not change any
estimate or the active edge set, so a second call with no intervening
estimate change recomputes and caches exactly the same active error, and
`activeChi2` returns the same value after either call. -/
theorem computeActiveErrors_idempotent (errFn : Edge → List Vertex → Int)
    (st : OptState) :
    activeChi2 (computeActiveErrors errFn (computeActiveErrors errFn st)) =
      activeChi2 (computeActiveErrors errFn st) ∧
    (computeActiveErrors errFn st).vertices = st.vertices ∧
    (computeActiveErrors errFn st).activeEdges = st.activeEdges :=
  ⟨rfl, rfl, rfl⟩

/-- Member `SparseOptimizer::setForceStopFlag`: installs (or clears) the externally
owned stop flag. -/
def setForceStopFlag (st : OptState) (flag : Option (Nat → Bool)) : OptState :=
  { st with forceStopFlag := flag }

/-- Member `SparseOptimizer::terminate`, translated from the inline body in
`sparse_optimizer.h` (`return _forceStopFlag ? (*_forceStopFlag) : false`):
the null pointer is `none`, and dereferencing the installed flag at poll
time `t` reads `f t`. -/
def terminate (st : OptState) (t : Nat) : Bool :=
  match st.forceStopFlag with
  | none => false
  | some f => f t

/-- C10: `terminate` returns `false` whenever no force-stop flag is
installed, and otherwise returns the current value of the installed flag;
the null case never dereferences the flag. -/
theorem terminate_spec (st : OptState) (t : Nat) :
    (st.forceStopFlag = none → terminate st t = false) ∧
    (∀ f, st.forceStopFlag = some f → terminate st t = f t) := by
  constructor
  · intro h
    unfold terminate
    rw [h]
  · intro f h
    unfold terminate
    rw [h]

theorem terminate_spec_witness :
    terminate stEx 0 = false ∧
    terminate (setForceStopFlag stEx (some (fun t => t == 1))) 5 = false :=
  ⟨(terminate_spec stEx 0).1 rfl,
   (terminate_spec (setForceStopFlag stEx (some (fun t => t == 1))) 5).2
     (fun t => t == 1) rfl⟩

/-- A sparse block matrix, as the output container of `computeMarginals`. -/
structure SparseBlockMatrix where
  blocks : List ((Nat × Nat) × Int)
deriving DecidableEq, Repr

/-- The pluggable Solving Strategy (`OptimizationAlgorithm`): it consumes the
linearized state and proposes an increment (`none` reports non-recoverable
failure), and it optionally exposes the marginal-block-extraction
capability. -/
structure OptimizationAlgorithm where
  solve : OptState → Option (List Int)
  marginalsImpl : Option (List (Nat × Nat) → SparseBlockMatrix)

/-- Modelled from the spec: `SparseOptimizer::computeMarginals` (body not in
the sources).  Requests the blocks of the inverse Hessian for the given
pattern from the installed strategy; when the strategy lacks the capability
the call fails and the output matrix is left as it was. -/
def computeMarginals (alg : OptimizationAlgorithm) (spinv : SparseBlockMatrix)
    (blockIndices : List (Nat × Nat)) : Bool × SparseBlockMatrix :=
  match alg.marginalsImpl with
  | none => (false, spinv)
  | some f => (true, f blockIndices)

/-- C8: against a strategy without the marginal-extraction capability,
`computeMarginals` returns `false` and leaves the output matrix unmodified,
for every requested block-index pattern. -/
theorem computeMarginals_unsupported (alg : OptimizationAlgorithm)
    (spinv : SparseBlockMatrix) (blockIndices : List (Nat × Nat))
    (h : alg.marginalsImpl = none) :
    (computeMarginals alg spinv blockIndices).1 = false ∧
    (computeMarginals alg spinv blockIndices).2 = spinv := by
  unfold computeMarginals
  rw [h]
  exact ⟨rfl, rfl⟩

/-- A strategy with no marginal-extraction capability (and no increments). -/
def noMarginalsAlg : OptimizationAlgorithm :=
  ⟨fun _ => none, none⟩

def spinvEx : SparseBlockMatrix := ⟨[((0, 0), 7)]⟩

theorem computeMarginals_unsupported_witness :
    (computeMarginals noMarginalsAlg spinvEx [(0, 1), (2, 2)]).1 = false ∧
    (computeMarginals noMarginalsAlg spinvEx [(0, 1), (2, 2)]).2 = spinvEx :=
  computeMarginals_unsupported noMarginalsAlg spinvEx [(0, 1), (2, 2)] rfl

/-- Applies a solved increment back into the graph through `update`, the
only mutation path from increments to estimates. -/
def updateState (d : List Int) (st : OptState) : OptState :=
  { st with vertices := update st.ivMap d st.vertices }

/-- One iteration of the `optimize` loop: compute the active errors,
delegate to the strategy (`none` is a non-recoverable failure), apply the
increment, and — unless running online — recompute the active errors for
the next convergence check. -/
def stepState (alg : OptimizationAlgorithm) (errFn : Edge → List Vertex → Int)
    (online : Bool) (st : OptState) : Option OptState :=
  match alg.solve (computeActiveErrors errFn st) with
  | none => none
  | some d =>
    if online then some (updateState d (computeActiveErrors errFn st))
    else some (computeActiveErrors errFn (updateState d (computeActiveErrors errFn st)))

/-- The `optimize` loop: `done` counts completed iterations; the force-stop
flag is polled once per iteration, before the iteration body runs, and a
strategy failure terminates the loop.  Returns the number of iterations
actually executed together with the final state. -/
def optimizeGo (alg : OptimizationAlgorithm) (errFn : Edge → List Vertex → Int)
    (online : Bool) : Nat → Nat → OptState → Nat × OptState
  | 0, done, st => (done, st)
  | k + 1, done, st =>
    if terminate st done then (done, st)
    else
      match stepState alg errFn online st with
      | none => (done, st)
      | some st' => optimizeGo alg errFn online k (done + 1) st'

/-- Modelled from the spec: `SparseOptimizer::optimize` (body not in the
sources). -/
def optimize (alg : OptimizationAlgorithm) (errFn : Edge → List Vertex → Int)
    (online : Bool) (iterations : Nat) (st : OptState) : Nat × OptState :=
  optimizeGo alg errFn online iterations 0 st

/-- The strategy that always reports success and returns the all-zero
increment, sized to the sum of the active vertices' dimensions. -/
def zeroAlgorithm : OptimizationAlgorithm :=
  ⟨fun st => some (List.replicate ((st.ivMap.map Vertex.dim).sum) 0), none⟩

theorem sliceFor_zero (act : List Vertex) (i : Nat) (s : List Int)
    (h : sliceFor act (List.replicate ((act.map Vertex.dim).sum) 0) i = some s) :
    ∃ w ∈ act, w.vid = i ∧ s = List.replicate w.dim 0 := by
  induction act generalizing s with
  | nil => simp [sliceFor] at h
  | cons w rest ih =>
    rw [sliceFor] at h
    by_cases hw : w.vid = i
    · rw [if_pos hw] at h
      refine ⟨w, List.mem_cons_self w rest, hw, ?_⟩
      have htake : (List.replicate ((List.map Vertex.dim (w :: rest)).sum) (0 : Int)).take w.dim
          = List.replicate w.dim (0 : Int) := by
        rw [List.take_replicate]
        congr 1
        simp [Nat.min_eq_left, Nat.le_add_right]
      rw [htake] at h
      exact (Option.some_inj.1 h).symm
    · rw [if_neg hw] at h
      have hdrop : (List.replicate ((List.map Vertex.dim (w :: rest)).sum) (0 : Int)).drop w.dim
          = List.replicate ((List.map Vertex.dim rest).sum) (0 : Int) := by
        rw [List.drop_replicate]
        congr 1
        simp
      rw [hdrop] at h
      obtain ⟨w', hw', hvid, hs⟩ := ih s h
      exact ⟨w', List.mem_cons_of_mem w hw', hvid, hs⟩

theorem zipWith_add_zero (l : List Int) :
    List.zipWith (· + ·) l (List.replicate l.length 0) = l := by
  induction l with
  | nil => rfl
  | cons a l ih => simp [List.zipWith, ih]

theorem update_zero (act : List Vertex) (vs : List Vertex)
    (hdim : ∀ w ∈ act, ∀ v ∈ vs, v.vid = w.vid → v.estimate.length = w.dim) :
    update act (List.replicate ((act.map Vertex.dim).sum) 0) vs = vs := by
  unfold update
  have hone : ∀ v ∈ vs,
      updateVertex act (List.replicate ((act.map Vertex.dim).sum) 0) v = v := by
    intro v hv
    cases hs : sliceFor act (List.replicate ((act.map Vertex.dim).sum) 0) v.vid with
    | none => simp [updateVertex, newEstimate, hs]
    | some s =>
      obtain ⟨w, hw, hwv, hseq⟩ := sliceFor_zero act v.vid s hs
      have hlen : v.estimate.length = w.dim := hdim w hw v hv hwv.symm
      simp [updateVertex, newEstimate, hs, hseq, ← hlen, zipWith_add_zero]
  rw [List.map_congr_left hone]
  simp

theorem stepState_zero (errFn : Edge → List Vertex → Int) (st : OptState)
    (hdim : ∀ w ∈ st.ivMap, ∀ v ∈ st.vertices, v.vid = w.vid → v.estimate.length = w.dim) :
    stepState zeroAlgorithm errFn false st =
      some { st with cachedChi2 := chi2Total errFn st.activeEdges st.vertices } := by
  unfold stepState zeroAlgorithm updateState computeActiveErrors
  simp only [Bool.false_eq_true, if_false]
  rw [update_zero st.ivMap st.vertices hdim]

/-- C6: running `optimize` for `N` iterations with the always-successful
zero-increment strategy and no stop flag executes exactly `N` iterations
(the return value is `N`) and leaves every vertex estimate — in fact the
whole vertex container — unchanged. -/
theorem optimize_zero_increment (errFn : Edge → List Vertex → Int) (N : Nat)
    (st : OptState) (hflag : st.forceStopFlag = none)
    (hdim : ∀ w ∈ st.ivMap, ∀ v ∈ st.vertices, v.vid = w.vid → v.estimate.length = w.dim) :
    (optimize zeroAlgorithm errFn false N st).1 = N ∧
    (optimize zeroAlgorithm errFn false N st).2.vertices = st.vertices := by
  suffices h : ∀ k c (s : OptState), s.forceStopFlag = none →
      (∀ w ∈ s.ivMap, ∀ v ∈ s.vertices, v.vid = w.vid → v.estimate.length = w.dim) →
      (optimizeGo zeroAlgorithm errFn false k c s).1 = c + k ∧
      (optimizeGo zeroAlgorithm errFn false k c s).2.vertices = s.vertices by
    have := h N 0 st hflag hdim
    simpa [optimize] using this
  intro k
  induction k with
  | zero => exact fun c s _ _ => ⟨rfl, rfl⟩
  | succ k ih =>
    intro c s hf hd
    have hterm : terminate s c = false := by
      unfold terminate
      rw [hf]
    rw [optimizeGo, hterm]
    simp only [Bool.false_eq_true, if_false]
    rw [stepState_zero errFn s hd]
    have hrec := ih (c + 1) { s with cachedChi2 := chi2Total errFn s.activeEdges s.vertices }
      hf hd
    refine ⟨?_, hrec.2⟩
    rw [hrec.1]
    omega

/-- An example error functional for the witnesses. -/
def errFnEx (e : Edge) (vs : List Vertex) : Int :=
  (e.eid : Int) + (vs.map (fun v => v.estimate.sum)).sum

/-- An edge between the two free example vertices. -/
def eAB : Edge := ⟨4, [1, 2]⟩

/-- An initialized optimizer state over the example graph. -/
def stEx2 : OptState := ⟨[vA, vB], [vA, vB], [vA, vB], [eAB], 0, none⟩

theorem optimize_zero_increment_witness :
    (optimize zeroAlgorithm errFnEx false 3 stEx2).1 = 3 ∧
    (optimize zeroAlgorithm errFnEx false 3 stEx2).2.vertices = stEx2.vertices :=
  optimize_zero_increment errFnEx 3 stEx2 rfl (by decide)

theorem stepState_flag (alg : OptimizationAlgorithm)
    (errFn : Edge → List Vertex → Int) (online : Bool) (st st' : OptState)
    (h : stepState alg errFn online st = some st') :
    st'.forceStopFlag = st.forceStopFlag := by
  unfold stepState at h
  cases hsolve : alg.solve (computeActiveErrors errFn st) with
  | none => rw [hsolve] at h; exact absurd h (by simp)
  | some d =>
    rw [hsolve] at h
    cases online with
    | true =>
      simp only [if_true] at h
      rw [← Option.some_inj.1 h]
      rfl
    | false =>
      simp only [Bool.false_eq_true, if_false] at h
      rw [← Option.some_inj.1 h]
      rfl

/-- C7: with an installed stop flag that reads `false` at the first poll and
`true` at the second, `optimize` over 5 requested iterations executes
exactly one (returns 1), and the final state is exactly the state after that
one completed iteration — the applied update is not rolled back. -/
theorem optimize_force_stop (alg : OptimizationAlgorithm)
    (errFn : Edge → List Vertex → Int) (st : OptState) (f : Nat → Bool)
    (hflag : st.forceStopFlag = some f) (h0 : f 0 = false) (h1 : f 1 = true)
    (st' : OptState) (hstep : stepState alg errFn false st = some st') :
    (optimize alg errFn false 5 st).1 = 1 ∧
    (optimize alg errFn false 5 st).2 = st' := by
  have hterm0 : terminate st 0 = false := by
    unfold terminate
    rw [hflag]
    exact h0
  have hflag' : st'.forceStopFlag = some f := by
    rw [stepState_flag alg errFn false st st' hstep, hflag]
  have hterm1 : terminate st' 1 = true := by
    unfold terminate
    rw [hflag']
    exact h1
  have hsucc : ∀ (k done : Nat) (s : OptState),
      optimizeGo alg errFn false (k + 1) done s =
        if terminate s done then (done, s)
        else
          match stepState alg errFn false s with
          | none => (done, s)
          | some s' => optimizeGo alg errFn false k (done + 1) s' :=
    fun k done s => by rw [optimizeGo]
  unfold optimize
  rw [show (5 : Nat) = 4 + 1 from rfl, hsucc, hterm0]
  simp only [Bool.false_eq_true, if_false]
  rw [hstep]
  change (optimizeGo alg errFn false (3 + 1) 1 st').1 = 1 ∧
    (optimizeGo alg errFn false (3 + 1) 1 st').2 = st'
  rw [hsucc, hterm1]
  exact ⟨rfl, rfl⟩

/-- The example stop flag: reads false at the first poll, true afterwards. -/
def fStop (t : Nat) : Bool := decide (1 ≤ t)

def stEx3 : OptState := setForceStopFlag stEx2 (some fStop)

theorem optimize_force_stop_witness :
    (optimize zeroAlgorithm errFnEx false 5 stEx3).1 = 1 ∧
    (optimize zeroAlgorithm errFnEx false 5 stEx3).2 =
      { stEx3 with cachedChi2 := chi2Total errFnEx stEx3.activeEdges stEx3.vertices } :=
  optimize_force_stop zeroAlgorithm errFnEx stEx3 fStop rfl rfl rfl
    { stEx3 with cachedChi2 := chi2Total errFnEx stEx3.activeEdges stEx3.vertices }
    (stepState_zero errFnEx stEx3 (by decide))

end g2o
